import Mathlib

/-!
Verification of the capacity-constrained sequential scheduler of
`src/streamlit_app.py` (lines 134-167), the core allocator of the
Bauzeitenplan generator.

Modelling conventions:
* Instants are rational numbers of hours since an epoch midnight: the Python
  value `datetime.combine(d, t)` becomes `24 * d + t`, and `dt.date()` becomes
  `⌊dt / 24⌋` (a day index).
* Times of day (`window_start`, `window_end`) are rationals; the Python
  `datetime.time` type guarantees `0 ≤ t < 24`, which appears as a hypothesis
  where a proof needs it.
* Python float arithmetic is idealised as exact rational arithmetic, and
  `(day_end - current_dt).seconds / 3600` as the exact difference in hours
  (the source truncates sub-second parts; the specified properties are stated
  up to floating tolerance, which exact arithmetic realises as equality).
* The unbounded `while remaining > 0` loop is given explicit fuel counting
  loop-body executions; the termination theorem shows a fuel bound
  proportional to `sum(hours) / (capacity * window length)` suffices, so fuel
  is an artifact of the embedding, not a semantic restriction.
-/

/-- A scheduled segment, `{"Task": task, "Start": seg_start, "Finish": seg_end}`
(line 163 of `streamlit_app.py`). -/
structure Seg where
  task : String
  start : ℚ
  finish : ℚ
deriving DecidableEq

/-- Outcome of the inner `while remaining > 0` loop for a single task:
the task was fully allocated (with its segments, in emission order, and the
final cursor position), the zero-capacity alert fired (line 151), or the fuel
bound was exhausted. -/
inductive TaskRes where
  | ok (segs : List Seg) (stop : ℚ)
  | infeasible
  | out
deriving DecidableEq

/-- Outcome of the whole scheduling run (lines 134-167): a feasible schedule,
the all-or-nothing infeasibility signal (`alert_shown` with `schedule = []`),
or fuel exhaustion. -/
inductive SchedResult where
  | feasible (segs : List Seg)
  | infeasible
  | out
deriving DecidableEq

/-- `dt.date()`: the calendar-day index of an instant. -/
def dateOf (t : ℚ) : ℤ := ⌊t / 24⌋

/-- `datetime.combine(d, t)`: the instant at time of day `t` on day `d`. -/
def combine (d : ℤ) (tod : ℚ) : ℚ := 24 * d + tod

/-- Lines 141-144: `day_start = combine(current_dt.date(), window_start)`
followed by `if current_dt < day_start: current_dt = day_start`. -/
def snapped (wOpen now : ℚ) : ℚ :=
  if now < combine (dateOf now) wOpen then combine (dateOf now) wOpen else now

/-- Line 149: `avail_wall = (day_end - current_dt) in hours`, computed on the
snapped cursor against `day_end = combine(current_dt.date(), window_end)`. -/
def availAt (wOpen wClose now : ℚ) : ℚ :=
  combine (dateOf now) wClose - snapped wOpen now

/-- Line 158: `alloc = min(remaining, possible_man)` where
`possible_man = avail_wall * total_team` (line 150). -/
def allocAt (team wOpen wClose r now : ℚ) : ℚ :=
  min r (availAt wOpen wClose now * team)

/-- Lines 159-161: `wall_h = alloc / total_team`;
`seg_end = current_dt + timedelta(hours=wall_h)`. -/
def segEndAt (team wOpen wClose r now : ℚ) : ℚ :=
  snapped wOpen now + allocAt team wOpen wClose r now / team

/-- The inner `while remaining > 0` loop (lines 140-165) for one task, with
`r` the remaining labor-hours and `now` the cursor `current_dt`.  Each fuel
unit pays for one execution of the loop body; the day-rollover `continue`
(lines 145-147) recurses without emitting a segment, the zero-capacity branch
(lines 151-156) aborts, and otherwise a segment is emitted (line 163) and the
cursor advances (line 165). -/
def taskLoop (team wOpen wClose : ℚ) (task : String) : ℕ → ℚ → ℚ → TaskRes
  | 0, r, now => if 0 < r then .out else .ok [] now
  | fuel + 1, r, now =>
    if 0 < r then
      if combine (dateOf now) wClose ≤ snapped wOpen now then
        taskLoop team wOpen wClose task fuel r
          (combine (dateOf (snapped wOpen now) + 1) wOpen)
      else if availAt wOpen wClose now * team ≤ 0 then .infeasible
      else
        match taskLoop team wOpen wClose task fuel
            (r - allocAt team wOpen wClose r now) (segEndAt team wOpen wClose r now) with
        | .ok segs stop =>
            .ok (⟨task, snapped wOpen now, segEndAt team wOpen wClose r now⟩ :: segs) stop
        | .infeasible => .infeasible
        | .out => .out
    else .ok [] now

/-- The outer `for task, hours in man.items()` loop (lines 138-167): tasks are
processed in order, segments concatenated; on the zero-capacity alert the whole
accumulated schedule is discarded (`schedule = []`, line 155) and no later task
is examined (`if alert_shown: break`, lines 166-167). -/
def scheduleAll (team wOpen wClose : ℚ) (fuel : ℕ) :
    List (String × ℚ) → ℚ → SchedResult
  | [], _ => .feasible []
  | (task, hours) :: rest, now =>
    match taskLoop team wOpen wClose task fuel hours now with
    | .ok segs stop =>
      match scheduleAll team wOpen wClose fuel rest stop with
      | .feasible more => .feasible (segs ++ more)
      | res => res
    | .infeasible => .infeasible
    | .out => .out

/-! ### Basic facts about the date/time model -/

/-- Characterisation of the day index from explicit bounds. -/
lemma dateOf_eq {t : ℚ} {d : ℤ} (h1 : 24 * (d : ℚ) ≤ t) (h2 : t < 24 * ((d : ℚ) + 1)) :
    dateOf t = d := by
  have h24 : (0 : ℚ) < 24 := by norm_num
  rw [dateOf, Int.floor_eq_iff]
  constructor
  · rw [le_div_iff₀ h24]; linarith
  · rw [div_lt_iff₀ h24]; linarith

/-- The day index of an instant built from a day and a time of day in `[0, 24)`. -/
lemma dateOf_combine (d : ℤ) {t : ℚ} (h0 : 0 ≤ t) (h24 : t < 24) :
    dateOf (combine d t) = d := by
  apply dateOf_eq <;> simp [combine] <;> linarith

lemma combine_lt_combine_left {d e : ℤ} (t : ℚ) (h : d < e) (u : ℚ) (htu : t ≤ u) :
    combine d t < combine e u := by
  have : (d : ℚ) + 1 ≤ e := by exact_mod_cast h
  simp only [combine]; nlinarith

lemma combine_le_combine_right (d : ℤ) {t u : ℚ} (h : t ≤ u) :
    combine d t ≤ combine d u := by
  simp only [combine]; linarith

/-- Each instant lies before its own day's next-day mark. -/
lemma lt_combine_next {t : ℚ} {wOpen : ℚ} (h0 : 0 ≤ wOpen) :
    t < combine (dateOf t + 1) wOpen := by
  have h24 : (0 : ℚ) < 24 := by norm_num
  have := Int.lt_floor_add_one (t / 24)
  have ht : t < 24 * ((dateOf t : ℚ) + 1) := by
    rw [dateOf]
    have := (div_lt_iff₀ h24).mp (by linarith [Int.lt_floor_add_one (t / 24)] :
      t / 24 < (⌊t / 24⌋ : ℚ) + 1)
    linarith
  simp only [combine]
  push_cast
  linarith

/-- The snap of line 143-144 never moves the cursor backwards. -/
lemma le_snapped (wOpen now : ℚ) : now ≤ snapped wOpen now := by
  unfold snapped
  split <;> [linarith; rfl]

/-- After the snap, the cursor is at or after the day's opening time. -/
lemma dayOpen_le_snapped (wOpen now : ℚ) :
    combine (dateOf now) wOpen ≤ snapped wOpen now := by
  unfold snapped
  split <;> [rfl; linarith [not_lt.mp (by assumption : ¬ now < combine (dateOf now) wOpen)]]

/-- Snapping keeps the calendar day when the opening time is a valid time of day. -/
lemma dateOf_snapped {wOpen : ℚ} (h0 : 0 ≤ wOpen) (h24 : wOpen < 24) (now : ℚ) :
    dateOf (snapped wOpen now) = dateOf now := by
  unfold snapped
  split
  · exact dateOf_combine _ h0 h24
  · rfl

/-- A cursor already placed exactly at an instant of the form `combine d t` with
`t` a valid time of day at or after opening is not moved by the snap. -/
lemma snapped_combine (wOpen t : ℚ) (d : ℤ) (h0 : 0 ≤ t) (h24 : t < 24)
    (hop : wOpen ≤ t) : snapped wOpen (combine d t) = combine d t := by
  unfold snapped
  rw [dateOf_combine d h0 h24, if_neg]
  simp only [combine, not_lt]
  linarith

/-! ### Step lemmas for the inner loop -/

/-- A task with no remaining hours is skipped immediately (the `while` guard on
line 140), leaving the cursor unchanged, whatever the fuel. -/
lemma taskLoop_nonpos (team wOpen wClose : ℚ) (task : String) (fuel : ℕ)
    {r : ℚ} (hr : ¬ 0 < r) (now : ℚ) :
    taskLoop team wOpen wClose task fuel r now = .ok [] now := by
  cases fuel <;> simp [taskLoop, hr]

/-- Day rollover (lines 145-147): with hours remaining and the snapped cursor at
or past the day's close, the loop re-enters at the next day's opening. -/
lemma taskLoop_rollover (team : ℚ) {wOpen wClose : ℚ} (task : String) (fuel : ℕ)
    {r now : ℚ} (hr : 0 < r)
    (hro : combine (dateOf now) wClose ≤ snapped wOpen now) :
    taskLoop team wOpen wClose task (fuel + 1) r now =
      taskLoop team wOpen wClose task fuel r
        (combine (dateOf (snapped wOpen now) + 1) wOpen) := by
  simp only [taskLoop, if_pos hr, if_pos hro]

/-- Zero-capacity detection (lines 151-156). -/
lemma taskLoop_capfail {team wOpen wClose : ℚ} (task : String) (fuel : ℕ)
    {r now : ℚ} (hr : 0 < r)
    (hro : ¬ combine (dateOf now) wClose ≤ snapped wOpen now)
    (hc : availAt wOpen wClose now * team ≤ 0) :
    taskLoop team wOpen wClose task (fuel + 1) r now = .infeasible := by
  simp only [taskLoop, if_pos hr, if_neg hro, if_pos hc]

/-- Allocation step (lines 158-165), stated for a recursive call that completes. -/
lemma taskLoop_alloc_ok {team wOpen wClose : ℚ} (task : String) (fuel : ℕ)
    {r now : ℚ} {segs : List Seg} {stop : ℚ} (hr : 0 < r)
    (hro : ¬ combine (dateOf now) wClose ≤ snapped wOpen now)
    (hc : ¬ availAt wOpen wClose now * team ≤ 0)
    (hrec : taskLoop team wOpen wClose task fuel (r - allocAt team wOpen wClose r now)
      (segEndAt team wOpen wClose r now) = .ok segs stop) :
    taskLoop team wOpen wClose task (fuel + 1) r now =
      .ok (⟨task, snapped wOpen now, segEndAt team wOpen wClose r now⟩ :: segs) stop := by
  simp only [taskLoop, if_pos hr, if_neg hro, if_neg hc, hrec]

/-! ### Step lemmas for the outer loop -/

lemma scheduleAll_cons_ok {team wOpen wClose : ℚ} {fuel : ℕ} {t : String}
    {hrs now stop : ℚ} {rest : List (String × ℚ)} {segs1 : List Seg}
    (htl : taskLoop team wOpen wClose t fuel hrs now = .ok segs1 stop) :
    scheduleAll team wOpen wClose fuel ((t, hrs) :: rest) now =
      match scheduleAll team wOpen wClose fuel rest stop with
      | .feasible more => .feasible (segs1 ++ more)
      | res => res := by
  simp only [scheduleAll, htl]

lemma scheduleAll_cons_infeasible {team wOpen wClose : ℚ} {fuel : ℕ} {t : String}
    {hrs now : ℚ} {rest : List (String × ℚ)}
    (htl : taskLoop team wOpen wClose t fuel hrs now = .infeasible) :
    scheduleAll team wOpen wClose fuel ((t, hrs) :: rest) now = .infeasible := by
  simp only [scheduleAll, htl]

/-- Inversion of a feasible run on a task list: the head task's loop completed,
the tail run was feasible from the head's final cursor, and the segments are
the concatenation. -/
lemma scheduleAll_feasible_cons {team wOpen wClose : ℚ} {fuel : ℕ} {t : String}
    {hrs now : ℚ} {rest : List (String × ℚ)} {segs : List Seg}
    (hf : scheduleAll team wOpen wClose fuel ((t, hrs) :: rest) now = .feasible segs) :
    ∃ segs1 stop more, taskLoop team wOpen wClose t fuel hrs now = .ok segs1 stop ∧
      scheduleAll team wOpen wClose fuel rest stop = .feasible more ∧
      segs = segs1 ++ more := by
  cases htl : taskLoop team wOpen wClose t fuel hrs now with
  | ok segs1 stop =>
    cases hrest : scheduleAll team wOpen wClose fuel rest stop with
    | feasible more =>
      refine ⟨segs1, stop, more, rfl, hrest, ?_⟩
      rw [scheduleAll_cons_ok htl, hrest] at hf
      simpa using hf.symm
    | infeasible =>
      rw [scheduleAll_cons_ok htl, hrest] at hf
      simp at hf
    | out =>
      rw [scheduleAll_cons_ok htl, hrest] at hf
      simp at hf
  | infeasible =>
    rw [scheduleAll_cons_infeasible htl] at hf
    simp at hf
  | out =>
    simp [scheduleAll, htl] at hf

/-! ### Per-task invariants of the inner loop -/

/-- Every segment emitted by the inner loop carries the task's name
(line 163). -/
lemma taskLoop_ok_task (team wOpen wClose : ℚ) (task : String) :
    ∀ (fuel : ℕ) (r now : ℚ) (segs : List Seg) (stop : ℚ),
      taskLoop team wOpen wClose task fuel r now = .ok segs stop →
      ∀ s ∈ segs, s.task = task := by
  intro fuel
  induction fuel with
  | zero =>
    intro r now segs stop h s hs
    by_cases hr : 0 < r
    · simp [taskLoop, hr] at h
    · rw [taskLoop_nonpos _ _ _ _ _ hr _] at h
      simp only [TaskRes.ok.injEq] at h
      rw [← h.1] at hs
      simp at hs
  | succ fuel ih =>
    intro r now segs stop h s hs
    by_cases hr : 0 < r
    · by_cases hro : combine (dateOf now) wClose ≤ snapped wOpen now
      · rw [taskLoop_rollover team task fuel hr hro] at h
        exact ih _ _ _ _ h s hs
      · by_cases hc : availAt wOpen wClose now * team ≤ 0
        · rw [taskLoop_capfail task fuel hr hro hc] at h
          simp at h
        · cases hrec : taskLoop team wOpen wClose task fuel
              (r - allocAt team wOpen wClose r now) (segEndAt team wOpen wClose r now) with
          | ok segs1 stop1 =>
            rw [taskLoop_alloc_ok task fuel hr hro hc hrec] at h
            simp only [TaskRes.ok.injEq] at h
            rw [← h.1] at hs
            rcases List.mem_cons.mp hs with rfl | hs1
            · rfl
            · exact ih _ _ _ _ hrec s hs1
          | infeasible =>
            simp only [taskLoop, if_pos hr, if_neg hro, if_neg hc, hrec] at h
            simp at h
          | out =>
            simp only [taskLoop, if_pos hr, if_neg hro, if_neg hc, hrec] at h
            simp at h
    · rw [taskLoop_nonpos _ _ _ _ _ hr _] at h
      simp only [TaskRes.ok.injEq] at h
      rw [← h.1] at hs
      simp at hs

/-- Conservation at a single task: when the inner loop completes, the emitted
wall-clock durations, multiplied by the crew capacity, sum exactly to the
task's required labor-hours (lines 158-164: each pass converts `alloc`
labor-hours into `alloc / total_team` wall-clock hours and subtracts `alloc`
from `remaining`). -/
lemma taskLoop_ok_sum (team wOpen wClose : ℚ) (task : String) :
    ∀ (fuel : ℕ) (r now : ℚ) (segs : List Seg) (stop : ℚ), 0 ≤ r →
      taskLoop team wOpen wClose task fuel r now = .ok segs stop →
      (segs.map fun s => s.finish - s.start).sum * team = r := by
  intro fuel
  induction fuel with
  | zero =>
    intro r now segs stop hr0 h
    by_cases hr : 0 < r
    · simp [taskLoop, hr] at h
    · rw [taskLoop_nonpos _ _ _ _ _ hr _] at h
      simp only [TaskRes.ok.injEq] at h
      rw [← h.1]
      simp
      linarith [not_lt.mp hr]
  | succ fuel ih =>
    intro r now segs stop hr0 h
    by_cases hr : 0 < r
    · by_cases hro : combine (dateOf now) wClose ≤ snapped wOpen now
      · rw [taskLoop_rollover team task fuel hr hro] at h
        exact ih _ _ _ _ hr0 h
      · by_cases hc : availAt wOpen wClose now * team ≤ 0
        · rw [taskLoop_capfail task fuel hr hro hc] at h
          simp at h
        · cases hrec : taskLoop team wOpen wClose task fuel
              (r - allocAt team wOpen wClose r now) (segEndAt team wOpen wClose r now) with
          | ok segs1 stop1 =>
            rw [taskLoop_alloc_ok task fuel hr hro hc hrec] at h
            simp only [TaskRes.ok.injEq] at h
            have hteam : 0 < team := by
              by_contra hteam
              push_neg at hteam
              have havail : 0 < availAt wOpen wClose now := by
                simp only [availAt]
                linarith [not_le.mp hro]
              exact hc (mul_nonpos_of_nonneg_of_nonpos havail.le hteam)
            have halloc_le : allocAt team wOpen wClose r now ≤ r := min_le_left _ _
            have hsum1 := ih _ _ _ _ (by linarith) hrec
            rw [← h.1]
            simp only [List.map_cons, List.sum_cons, segEndAt, add_sub_cancel_left]
            rw [add_mul, hsum1, div_mul_cancel₀ _ (ne_of_gt hteam)]
            ring
          | infeasible =>
            simp only [taskLoop, if_pos hr, if_neg hro, if_neg hc, hrec] at h
            simp at h
          | out =>
            simp only [taskLoop, if_pos hr, if_neg hro, if_neg hc, hrec] at h
            simp at h
    · rw [taskLoop_nonpos _ _ _ _ _ hr _] at h
      simp only [TaskRes.ok.injEq] at h
      rw [← h.1]
      simp
      linarith [not_lt.mp hr]

/-- Master invariant of the inner loop: when it completes, the cursor moved
forward, the emitted segments are pairwise ordered (each finish at or before
every later start), and each segment starts at or after the entry cursor,
has nonnegative extent, ends by the final cursor, and lies inside its own
day's `[day_open, day_close)` window. -/
lemma taskLoop_ok_inv {team wOpen wClose : ℚ} (task : String)
    (h0 : 0 ≤ wOpen) (how : wOpen < wClose) (h24 : wClose < 24) :
    ∀ (fuel : ℕ) (r now : ℚ) (segs : List Seg) (stop : ℚ),
      taskLoop team wOpen wClose task fuel r now = .ok segs stop →
      now ≤ stop ∧
      List.Pairwise (fun a b : Seg => a.finish ≤ b.start) segs ∧
      ∀ s ∈ segs, now ≤ s.start ∧ s.start ≤ s.finish ∧ s.finish ≤ stop ∧
        combine (dateOf s.start) wOpen ≤ s.start ∧
        s.finish ≤ combine (dateOf s.start) wClose := by
  have hO24 : wOpen < 24 := lt_trans how h24
  intro fuel
  induction fuel with
  | zero =>
    intro r now segs stop h
    by_cases hr : 0 < r
    · simp [taskLoop, hr] at h
    · rw [taskLoop_nonpos _ _ _ _ _ hr _] at h
      simp only [TaskRes.ok.injEq] at h
      obtain ⟨hsegs, hstop⟩ := h
      subst hsegs
      subst hstop
      exact ⟨le_refl _, by simp, by simp⟩
  | succ fuel ih =>
    intro r now segs stop h
    by_cases hr : 0 < r
    · by_cases hro : combine (dateOf now) wClose ≤ snapped wOpen now
      · rw [taskLoop_rollover team task fuel hr hro] at h
        obtain ⟨hst, hpw, hmem⟩ := ih _ _ _ _ h
        have hnext : now ≤ combine (dateOf (snapped wOpen now) + 1) wOpen :=
          le_trans (le_snapped wOpen now) (le_of_lt (lt_combine_next h0))
        refine ⟨le_trans hnext hst, hpw, fun s hs => ?_⟩
        obtain ⟨ha, hb, hc, hd, he⟩ := hmem s hs
        exact ⟨le_trans hnext ha, hb, hc, hd, he⟩
      · by_cases hc : availAt wOpen wClose now * team ≤ 0
        · rw [taskLoop_capfail task fuel hr hro hc] at h
          simp at h
        · cases hrec : taskLoop team wOpen wClose task fuel
              (r - allocAt team wOpen wClose r now) (segEndAt team wOpen wClose r now) with
          | ok segs1 stop1 =>
            rw [taskLoop_alloc_ok task fuel hr hro hc hrec] at h
            simp only [TaskRes.ok.injEq] at h
            obtain ⟨hsegs, hstop⟩ := h
            subst hsegs
            subst hstop
            obtain ⟨hst, hpw, hmem⟩ := ih _ _ _ _ hrec
            have hro' : snapped wOpen now < combine (dateOf now) wClose := not_le.mp hro
            have havail : 0 < availAt wOpen wClose now := by
              simp only [availAt]; linarith
            have hcap : 0 < availAt wOpen wClose now * team := not_le.mp hc
            have hteam : 0 < team := by
              by_contra hteam
              push_neg at hteam
              exact hc (mul_nonpos_of_nonneg_of_nonpos havail.le hteam)
            have halloc_pos : 0 < allocAt team wOpen wClose r now := lt_min hr hcap
            have halloc_le : allocAt team wOpen wClose r now ≤ availAt wOpen wClose now * team :=
              min_le_right _ _
            have hwall_pos : 0 < allocAt team wOpen wClose r now / team :=
              div_pos halloc_pos hteam
            have hwall_le : allocAt team wOpen wClose r now / team ≤ availAt wOpen wClose now :=
              (div_le_iff₀ hteam).mpr halloc_le
            have hseg_end_le : segEndAt team wOpen wClose r now ≤ combine (dateOf now) wClose := by
              simp only [segEndAt, availAt] at hwall_le ⊢
              linarith
            have hn1 : now ≤ snapped wOpen now := le_snapped _ _
            have hn1e : snapped wOpen now ≤ segEndAt team wOpen wClose r now := by
              simp only [segEndAt]; linarith
            have hdsn : dateOf (snapped wOpen now) = dateOf now := dateOf_snapped h0 hO24 now
            have hopen_le : combine (dateOf now) wOpen ≤ snapped wOpen now :=
              dayOpen_le_snapped _ _
            refine ⟨le_trans hn1 (le_trans hn1e hst), ?_, ?_⟩
            · refine List.pairwise_cons.mpr ⟨fun b hb => ?_, hpw⟩
              exact (hmem b hb).1
            · intro s hs
              rcases List.mem_cons.mp hs with rfl | hs1
              · refine ⟨hn1, hn1e, hst, ?_, ?_⟩
                · show combine (dateOf (snapped wOpen now)) wOpen ≤ snapped wOpen now
                  rw [hdsn]; exact hopen_le
                · show segEndAt team wOpen wClose r now ≤
                    combine (dateOf (snapped wOpen now)) wClose
                  rw [hdsn]; exact hseg_end_le
              · obtain ⟨ha, hb, hc', hd, he⟩ := hmem s hs1
                exact ⟨le_trans (le_trans hn1 hn1e) ha, hb, hc', hd, he⟩
          | infeasible =>
            simp only [taskLoop, if_pos hr, if_neg hro, if_neg hc, hrec] at h
            simp at h
          | out =>
            simp only [taskLoop, if_pos hr, if_neg hro, if_neg hc, hrec] at h
            simp at h
    · rw [taskLoop_nonpos _ _ _ _ _ hr _] at h
      simp only [TaskRes.ok.injEq] at h
      obtain ⟨hsegs, hstop⟩ := h
      subst hsegs
      subst hstop
      exact ⟨le_refl _, by simp, by simp⟩

/-- Master invariant of a feasible run: segments are pairwise ordered and each
lies in its own day's window, at or after the initial cursor. -/
lemma scheduleAll_feasible_inv {team wOpen wClose : ℚ}
    (h0 : 0 ≤ wOpen) (how : wOpen < wClose) (h24 : wClose < 24) (fuel : ℕ) :
    ∀ (tasks : List (String × ℚ)) (now : ℚ) (segs : List Seg),
      scheduleAll team wOpen wClose fuel tasks now = .feasible segs →
      List.Pairwise (fun a b : Seg => a.finish ≤ b.start) segs ∧
      ∀ s ∈ segs, now ≤ s.start ∧ s.start ≤ s.finish ∧
        combine (dateOf s.start) wOpen ≤ s.start ∧
        s.finish ≤ combine (dateOf s.start) wClose := by
  intro tasks
  induction tasks with
  | nil =>
    intro now segs hf
    simp only [scheduleAll, SchedResult.feasible.injEq] at hf
    rw [← hf]
    simp
  | cons p rest ih =>
    obtain ⟨t, hrs⟩ := p
    intro now segs hf
    obtain ⟨segs1, stop, more, htl, hrest, rfl⟩ := scheduleAll_feasible_cons hf
    obtain ⟨hst, hpw1, hmem1⟩ := taskLoop_ok_inv t h0 how h24 fuel hrs now segs1 stop htl
    obtain ⟨hpw2, hmem2⟩ := ih stop more hrest
    constructor
    · rw [List.pairwise_append]
      refine ⟨hpw1, hpw2, fun a ha b hb => ?_⟩
      exact le_trans ((hmem1 a ha).2.2.1) ((hmem2 b hb).1)
    · intro s hs
      rcases List.mem_append.mp hs with hs1 | hs2
      · obtain ⟨ha, hb, _, hd, he⟩ := hmem1 s hs1
        exact ⟨ha, hb, hd, he⟩
      · obtain ⟨ha, hb, hc, hd⟩ := hmem2 s hs2
        exact ⟨le_trans hst ha, hb, hc, hd⟩

/-! ### Conservation of labor-hours at run level -/

lemma filter_task_of_forall {t name : String} :
    ∀ l : List Seg, (∀ s ∈ l, s.task = t) →
      l.filter (fun s => s.task == name) = if t = name then l else [] := by
  intro l
  induction l with
  | nil => intro _; simp
  | cons a l ih =>
    intro hall
    have ha : a.task = t := hall a (List.mem_cons_self a l)
    have hl := ih fun s hs => hall s (List.mem_cons_of_mem a hs)
    by_cases ht : t = name
    · subst ht
      simp only [List.filter_cons, ha, beq_self_eq_true, if_pos] at hl ⊢
      simp [hl]
    · have : (a.task == name) = false := by
        rw [ha]; exact beq_false_of_ne ht
      simp [List.filter_cons, this, hl, ht]

/-- Conservation over a whole feasible run, grouped by task name: for every
name, the wall-clock extents of the segments carrying that name, multiplied by
the crew capacity, sum to the total hours requested under that name. -/
lemma scheduleAll_feasible_sum {team wOpen wClose : ℚ} (fuel : ℕ) :
    ∀ (tasks : List (String × ℚ)) (now : ℚ) (segs : List Seg),
      (∀ p ∈ tasks, 0 ≤ p.2) →
      scheduleAll team wOpen wClose fuel tasks now = .feasible segs →
      ∀ name : String,
        ((segs.filter fun s => s.task == name).map fun s => s.finish - s.start).sum * team =
          ((tasks.filter fun p => p.1 == name).map Prod.snd).sum := by
  intro tasks
  induction tasks with
  | nil =>
    intro now segs _ hf name
    simp only [scheduleAll, SchedResult.feasible.injEq] at hf
    rw [← hf]
    simp
  | cons p rest ih =>
    obtain ⟨t, hrs⟩ := p
    intro now segs hnn hf name
    obtain ⟨segs1, stop, more, htl, hrest, rfl⟩ := scheduleAll_feasible_cons hf
    have h1 := taskLoop_ok_sum team wOpen wClose t fuel hrs now segs1 stop
      (hnn (t, hrs) (List.mem_cons_self _ _)) htl
    have htask := taskLoop_ok_task team wOpen wClose t fuel hrs now segs1 stop htl
    have h2 := ih stop more (fun p hp => hnn p (List.mem_cons_of_mem _ hp)) hrest name
    rw [List.filter_append, List.map_append, List.sum_append, add_mul, h2,
      filter_task_of_forall segs1 htask]
    by_cases ht : t = name
    · subst ht
      simp only [if_pos rfl, List.filter_cons, beq_self_eq_true, if_pos, List.map_cons,
        List.sum_cons, h1]
    · have hbeq : (t == name) = false := beq_false_of_ne ht
      simp [List.filter_cons, hbeq, ht]

/-! ### Concrete evaluations of the scheduler -/

lemma dateOf_8 : dateOf 8 = 0 := dateOf_eq (by norm_num) (by norm_num)

lemma dateOf_19 : dateOf 19 = 0 := dateOf_eq (by norm_num) (by norm_num)

lemma dateOf_32 : dateOf 32 = 1 := dateOf_eq (by norm_num) (by norm_num)

lemma combine_0_8 : combine 0 8 = 8 := by norm_num [combine]

lemma combine_0_19 : combine 0 19 = 19 := by norm_num [combine]

lemma combine_1_8 : combine 1 8 = 32 := by norm_num [combine]

lemma combine_1_19 : combine 1 19 = 43 := by norm_num [combine]

lemma snapped_8_8 : snapped 8 8 = 8 := by
  have := snapped_combine 8 8 0 (by norm_num) (by norm_num) (by norm_num)
  rwa [combine_0_8] at this

lemma snapped_8_19 : snapped 8 19 = 19 := by
  have := snapped_combine 8 19 0 (by norm_num) (by norm_num) (by norm_num)
  rwa [combine_0_19] at this

lemma snapped_8_32 : snapped 8 32 = 32 := by
  have := snapped_combine 8 8 1 (by norm_num) (by norm_num) (by norm_num)
  rwa [combine_1_8] at this

/-- The rollover scenario run: window 08:00-19:00, capacity 14, one task of
200 labor-hours starting day 0 at 08:00.  Day 0 delivers 154 labor-hours
(08:00-19:00); the remaining 46 labor-hours finish on day 1 at
`08:00 + 46/14 h` (instant `247/7 = 32 + 23/7`). -/
lemma evalRun200 : scheduleAll 14 8 19 5 [("A", 200)] (combine 0 8) =
    .feasible [⟨"A", 8, 19⟩, ⟨"A", 32, 247/7⟩] := by
  have h3 : taskLoop 14 8 19 "A" 3 46 32 = .ok [⟨"A", 32, 247/7⟩] (247/7) := by
    have ha : allocAt 14 8 19 46 32 = 46 := by
      rw [allocAt, availAt, dateOf_32, combine_1_19, snapped_8_32]; norm_num
    have he : segEndAt 14 8 19 46 32 = 247/7 := by
      rw [segEndAt, snapped_8_32, ha]; norm_num
    have hrec : taskLoop 14 8 19 "A" 2 (46 - allocAt 14 8 19 46 32)
        (segEndAt 14 8 19 46 32) = .ok [] (247/7) := by
      rw [ha, he]
      exact taskLoop_nonpos _ _ _ _ _ (by norm_num) _
    have := taskLoop_alloc_ok "A" 2 (by norm_num)
      (by rw [dateOf_32, combine_1_19, snapped_8_32]; norm_num)
      (by rw [availAt, dateOf_32, combine_1_19, snapped_8_32]; norm_num) hrec
    rw [this, snapped_8_32, he]
  have h2 : taskLoop 14 8 19 "A" 4 46 19 = .ok [⟨"A", 32, 247/7⟩] (247/7) := by
    rw [taskLoop_rollover 14 "A" 3 (by norm_num)
      (by rw [dateOf_19, combine_0_19, snapped_8_19])]
    rw [snapped_8_19, dateOf_19]
    norm_num
    rw [combine_1_8]
    exact h3
  have h1 : taskLoop 14 8 19 "A" 5 200 8 = .ok [⟨"A", 8, 19⟩, ⟨"A", 32, 247/7⟩] (247/7) := by
    have ha : allocAt 14 8 19 200 8 = 154 := by
      rw [allocAt, availAt, dateOf_8, combine_0_19, snapped_8_8]; norm_num
    have he : segEndAt 14 8 19 200 8 = 19 := by
      rw [segEndAt, snapped_8_8, ha]; norm_num
    have hrec : taskLoop 14 8 19 "A" 4 (200 - allocAt 14 8 19 200 8)
        (segEndAt 14 8 19 200 8) = .ok [⟨"A", 32, 247/7⟩] (247/7) := by
      rw [ha, he]; norm_num; exact h2
    have := taskLoop_alloc_ok "A" 4 (by norm_num)
      (by rw [dateOf_8, combine_0_19, snapped_8_8]; norm_num)
      (by rw [availAt, dateOf_8, combine_0_19, snapped_8_8]; norm_num) hrec
    rw [this, snapped_8_8, he]
  rw [combine_0_8, scheduleAll_cons_ok h1]
  simp [scheduleAll]

/-- A one-segment run: window 08:00-19:00, capacity 1, a single 11 labor-hour
task starting day 0 at 08:00 fills the day exactly. -/
lemma evalRun11 : scheduleAll 1 8 19 5 [("A", 11)] 8 = .feasible [⟨"A", 8, 19⟩] := by
  have h1 : taskLoop 1 8 19 "A" 5 11 8 = .ok [⟨"A", 8, 19⟩] 19 := by
    have ha : allocAt 1 8 19 11 8 = 11 := by
      rw [allocAt, availAt, dateOf_8, combine_0_19, snapped_8_8]; norm_num
    have he : segEndAt 1 8 19 11 8 = 19 := by
      rw [segEndAt, snapped_8_8, ha]; norm_num
    have hrec : taskLoop 1 8 19 "A" 4 (11 - allocAt 1 8 19 11 8)
        (segEndAt 1 8 19 11 8) = .ok [] 19 := by
      rw [ha, he]
      exact taskLoop_nonpos _ _ _ _ _ (by norm_num) _
    have := taskLoop_alloc_ok "A" 4 (by norm_num)
      (by rw [dateOf_8, combine_0_19, snapped_8_8]; norm_num)
      (by rw [availAt, dateOf_8, combine_0_19, snapped_8_8]; norm_num) hrec
    rw [this, snapped_8_8, he]
  rw [scheduleAll_cons_ok h1]
  simp [scheduleAll]

/-- A two-hour task whose loop starts exactly at day 0's close (19:00) rolls
over and runs 08:00-10:00 on day 1. -/
lemma evalTask2 : taskLoop 1 8 19 "B" 3 2 (combine 0 19) = .ok [⟨"B", 32, 34⟩] 34 := by
  rw [combine_0_19]
  have h2 : taskLoop 1 8 19 "B" 2 2 32 = .ok [⟨"B", 32, 34⟩] 34 := by
    have ha : allocAt 1 8 19 2 32 = 2 := by
      rw [allocAt, availAt, dateOf_32, combine_1_19, snapped_8_32]; norm_num
    have he : segEndAt 1 8 19 2 32 = 34 := by
      rw [segEndAt, snapped_8_32, ha]; norm_num
    have hrec : taskLoop 1 8 19 "B" 1 (2 - allocAt 1 8 19 2 32)
        (segEndAt 1 8 19 2 32) = .ok [] 34 := by
      rw [ha, he]
      exact taskLoop_nonpos _ _ _ _ _ (by norm_num) _
    have := taskLoop_alloc_ok "B" 1 (by norm_num)
      (by rw [dateOf_32, combine_1_19, snapped_8_32]; norm_num)
      (by rw [availAt, dateOf_32, combine_1_19, snapped_8_32]; norm_num) hrec
    rw [this, snapped_8_32, he]
  rw [taskLoop_rollover 1 "B" 2 (by norm_num)
    (by rw [dateOf_19, combine_0_19, snapped_8_19])]
  rw [snapped_8_19, dateOf_19]
  norm_num
  rw [combine_1_8]
  exact h2

/-! ### Claim theorems -/

/-- C1 (Conservation): for every input satisfying the preconditions
(capacity > 0, `window.open < window.close`, every hours ≥ 0) on which the
scheduler returns a feasible result, and for each task name in the input, the
sum over the segments carrying that name of `(finish - start) * capacity`
equals the total hours requested under that name (exactly, in the rational
model); with distinct task names this is the per-task conservation statement. -/
theorem c1_conservation (team wOpen wClose : ℚ) (hteam : 0 < team) (hw : wOpen < wClose)
    (fuel : ℕ) (tasks : List (String × ℚ)) (hnn : ∀ p ∈ tasks, 0 ≤ p.2) (now : ℚ)
    (segs : List Seg) (hfeas : scheduleAll team wOpen wClose fuel tasks now = .feasible segs)
    (name : String) :
    ((segs.filter fun s => s.task == name).map fun s => s.finish - s.start).sum * team =
      ((tasks.filter fun p => p.1 == name).map Prod.snd).sum :=
  scheduleAll_feasible_sum fuel tasks now segs hnn hfeas name

/-- Witness for C1 at the concrete one-task run `evalRun11`. -/
theorem c1_conservation_witness :
    ((([⟨"A", 8, 19⟩] : List Seg).filter fun s => s.task == "A").map
        fun s => s.finish - s.start).sum * 1 =
      (([("A", (11 : ℚ))].filter fun p => p.1 == "A").map Prod.snd).sum :=
  c1_conservation 1 8 19 (by norm_num) (by norm_num) 5 [("A", 11)]
    (by rintro p hp; simp only [List.mem_singleton] at hp; subst hp; norm_num)
    8 [⟨"A", 8, 19⟩] evalRun11 "A"

/-- C3 (Window containment): in a feasible result every segment's
`[start, finish)` interval lies inside the working window
`[day_open, day_close)` of the calendar day of its start; since
`day_close < 24:00`, no segment crosses midnight. -/
theorem c3_window_containment (team wOpen wClose : ℚ) (h0 : 0 ≤ wOpen)
    (hw : wOpen < wClose) (h24 : wClose < 24) (fuel : ℕ) (tasks : List (String × ℚ))
    (now : ℚ) (segs : List Seg)
    (hfeas : scheduleAll team wOpen wClose fuel tasks now = .feasible segs) :
    ∀ s ∈ segs, combine (dateOf s.start) wOpen ≤ s.start ∧
      s.finish ≤ combine (dateOf s.start) wClose := by
  intro s hs
  obtain ⟨_, hmem⟩ := scheduleAll_feasible_inv h0 hw h24 fuel tasks now segs hfeas
  exact ⟨(hmem s hs).2.2.1, (hmem s hs).2.2.2⟩

/-- Witness for C3 at the concrete one-task run `evalRun11`. -/
theorem c3_window_containment_witness :
    combine (dateOf ((⟨"A", 8, 19⟩ : Seg).start)) 8 ≤ (⟨"A", 8, 19⟩ : Seg).start ∧
      (⟨"A", 8, 19⟩ : Seg).finish ≤ combine (dateOf ((⟨"A", 8, 19⟩ : Seg).start)) 19 :=
  c3_window_containment 1 8 19 (by norm_num) (by norm_num) (by norm_num) 5
    [("A", 11)] 8 [⟨"A", 8, 19⟩] evalRun11 ⟨"A", 8, 19⟩ (List.mem_singleton_self _)

/-- C4 (Ordering): in a feasible result the segment start instants are
non-decreasing across the whole output, and each segment finishes at or before
the next one starts (consecutive segments follow from the pairwise fact). -/
theorem c4_ordering (team wOpen wClose : ℚ) (h0 : 0 ≤ wOpen) (hw : wOpen < wClose)
    (h24 : wClose < 24) (fuel : ℕ) (tasks : List (String × ℚ)) (now : ℚ)
    (segs : List Seg)
    (hfeas : scheduleAll team wOpen wClose fuel tasks now = .feasible segs) :
    List.Pairwise (fun a b : Seg => a.start ≤ b.start) segs ∧
      List.Chain' (fun a b : Seg => a.finish ≤ b.start) segs := by
  obtain ⟨hpw, hmem⟩ := scheduleAll_feasible_inv h0 hw h24 fuel tasks now segs hfeas
  constructor
  · exact hpw.imp_of_mem fun ha hb hab =>
      le_trans (hmem _ ha).2.1 hab
  · exact hpw.chain'

/-- Witness for C4 at the concrete two-segment rollover run `evalRun200`. -/
theorem c4_ordering_witness :
    List.Pairwise (fun a b : Seg => a.start ≤ b.start)
        [⟨"A", 8, 19⟩, ⟨"A", 32, 247/7⟩] ∧
      List.Chain' (fun a b : Seg => a.finish ≤ b.start)
        [⟨"A", 8, 19⟩, ⟨"A", 32, 247/7⟩] :=
  c4_ordering 14 8 19 (by norm_num) (by norm_num) (by norm_num) 5
    [("A", 200)] (combine 0 8) [⟨"A", 8, 19⟩, ⟨"A", 32, 247/7⟩] evalRun200

/-- C5 (Rollover scenario): window `[08:00, 19:00)`, capacity 14, start day 0
at 08:00, one 200-hour task: exactly two segments, day 0 08:00-19:00
(154 labor-hours) and day 1 08:00 to `08:00 + 46/14 h` (about 11:17). -/
theorem c5_rollover_scenario :
    scheduleAll 14 8 19 5 [("A", 200)] (combine 0 8) =
      .feasible [⟨"A", combine 0 8, combine 0 19⟩,
        ⟨"A", combine 1 8, combine 1 8 + 46/14⟩] := by
  rw [evalRun200, combine_0_8, combine_0_19, combine_1_8]
  norm_num

/-! ### State facts at window boundaries -/

lemma availAt_open {wOpen wClose : ℚ} (h0 : 0 ≤ wOpen) (hO24 : wOpen < 24) (d : ℤ) :
    availAt wOpen wClose (combine d wOpen) = wClose - wOpen := by
  rw [availAt, dateOf_combine d h0 hO24, snapped_combine wOpen wOpen d h0 hO24 le_rfl]
  simp only [combine]
  ring

lemma open_not_rollover {wOpen wClose : ℚ} (h0 : 0 ≤ wOpen) (hO24 : wOpen < 24)
    (how : wOpen < wClose) (d : ℤ) :
    ¬ combine (dateOf (combine d wOpen)) wClose ≤ snapped wOpen (combine d wOpen) := by
  rw [dateOf_combine d h0 hO24, snapped_combine wOpen wOpen d h0 hO24 le_rfl, not_le]
  simp only [combine]
  linarith

lemma close_rollover {wOpen wClose : ℚ} (h0C : 0 ≤ wClose) (h24 : wClose < 24)
    (how : wOpen ≤ wClose) (d : ℤ) :
    combine (dateOf (combine d wClose)) wClose ≤ snapped wOpen (combine d wClose) := by
  rw [dateOf_combine d h0C h24, snapped_combine wOpen wClose d h0C h24 how]

lemma allocAt_open {team wOpen wClose : ℚ} (h0 : 0 ≤ wOpen) (hO24 : wOpen < 24)
    (r : ℚ) (d : ℤ) :
    allocAt team wOpen wClose r (combine d wOpen) = min r ((wClose - wOpen) * team) := by
  rw [allocAt, availAt_open h0 hO24]

lemma open_cap_pos {team wOpen wClose : ℚ} (h0 : 0 ≤ wOpen) (hO24 : wOpen < 24)
    (how : wOpen < wClose) (hteam : 0 < team) (d : ℤ) :
    ¬ availAt wOpen wClose (combine d wOpen) * team ≤ 0 := by
  rw [availAt_open h0 hO24, not_le]
  exact mul_pos (by linarith) hteam

lemma segEndAt_open_full {team wOpen wClose r : ℚ} (h0 : 0 ≤ wOpen) (hO24 : wOpen < 24)
    (hteam : 0 < team) (d : ℤ) (hrW : (wClose - wOpen) * team ≤ r) :
    segEndAt team wOpen wClose r (combine d wOpen) = combine d wClose := by
  rw [segEndAt, snapped_combine wOpen wOpen d h0 hO24 le_rfl, allocAt_open h0 hO24,
    min_eq_right hrW, mul_div_cancel_right₀ _ (ne_of_gt hteam)]
  simp only [combine]
  ring

/-- Allocation step when the recursive call hit the zero-capacity alert. -/
lemma taskLoop_alloc_infeasible {team wOpen wClose : ℚ} (task : String) (fuel : ℕ)
    {r now : ℚ} (hr : 0 < r)
    (hro : ¬ combine (dateOf now) wClose ≤ snapped wOpen now)
    (hc : ¬ availAt wOpen wClose now * team ≤ 0)
    (hrec : taskLoop team wOpen wClose task fuel (r - allocAt team wOpen wClose r now)
      (segEndAt team wOpen wClose r now) = .infeasible) :
    taskLoop team wOpen wClose task (fuel + 1) r now = .infeasible := by
  simp only [taskLoop, if_pos hr, if_neg hro, if_neg hc, hrec]

/-- The allocation step cannot create fuel exhaustion if its recursive call
does not exhaust the fuel. -/
lemma taskLoop_alloc_ne_out {team wOpen wClose : ℚ} (task : String) (fuel : ℕ)
    {r now : ℚ} (hr : 0 < r)
    (hro : ¬ combine (dateOf now) wClose ≤ snapped wOpen now)
    (hc : ¬ availAt wOpen wClose now * team ≤ 0)
    (hrec : taskLoop team wOpen wClose task fuel (r - allocAt team wOpen wClose r now)
      (segEndAt team wOpen wClose r now) ≠ .out) :
    taskLoop team wOpen wClose task (fuel + 1) r now ≠ .out := by
  cases hrec2 : taskLoop team wOpen wClose task fuel (r - allocAt team wOpen wClose r now)
      (segEndAt team wOpen wClose r now) with
  | ok segs stop =>
    rw [taskLoop_alloc_ok task fuel hr hro hc hrec2]
    simp
  | infeasible =>
    rw [taskLoop_alloc_infeasible task fuel hr hro hc hrec2]
    simp
  | out => exact absurd hrec2 hrec

lemma scheduleAll_cons_out {team wOpen wClose : ℚ} {fuel : ℕ} {t : String}
    {hrs now : ℚ} {rest : List (String × ℚ)}
    (htl : taskLoop team wOpen wClose t fuel hrs now = .out) :
    scheduleAll team wOpen wClose fuel ((t, hrs) :: rest) now = .out := by
  simp only [scheduleAll, htl]

/-- With zero capacity, any task with positive remaining hours triggers the
zero-capacity alert within two loop passes (at most one rollover is needed to
reach the inside of a day window). -/
lemma taskLoop_capZero {wOpen wClose : ℚ} (task : String) (h0 : 0 ≤ wOpen)
    (how : wOpen < wClose) (h24 : wClose < 24) (fuel : ℕ) (hfuel : 2 ≤ fuel)
    (r now : ℚ) (hr : 0 < r) :
    taskLoop 0 wOpen wClose task fuel r now = .infeasible := by
  have hO24 : wOpen < 24 := lt_trans how h24
  obtain ⟨f, rfl⟩ : ∃ f, fuel = f + 2 := ⟨fuel - 2, by omega⟩
  by_cases hro : combine (dateOf now) wClose ≤ snapped wOpen now
  · rw [taskLoop_rollover 0 task (f + 1) hr hro]
    apply taskLoop_capfail task f hr (open_not_rollover h0 hO24 how _)
    rw [availAt_open h0 hO24]
    simp
  · apply taskLoop_capfail task (f + 1) hr hro
    simp

/-- C2 (All-or-nothing infeasibility): with zero capacity and at least one task
of positive hours, the run returns the infeasibility signal — which carries no
segments, however many zero-hours tasks were processed before, and no later
task is examined (the result is `.infeasible` irrespective of the tail). -/
theorem c2_all_or_nothing (wOpen wClose : ℚ) (h0 : 0 ≤ wOpen) (hw : wOpen < wClose)
    (h24 : wClose < 24) (fuel : ℕ) (hfuel : 2 ≤ fuel) :
    ∀ (tasks : List (String × ℚ)) (now : ℚ), (∃ p ∈ tasks, 0 < p.2) →
      scheduleAll 0 wOpen wClose fuel tasks now = .infeasible := by
  intro tasks
  induction tasks with
  | nil =>
    intro now hpos
    simp at hpos
  | cons p rest ih =>
    obtain ⟨t, hrs⟩ := p
    intro now hpos
    by_cases hr : 0 < hrs
    · exact scheduleAll_cons_infeasible (taskLoop_capZero t h0 hw h24 fuel hfuel hrs now hr)
    · have htl : taskLoop 0 wOpen wClose t fuel hrs now = .ok [] now :=
        taskLoop_nonpos _ _ _ _ _ hr _
      rw [scheduleAll_cons_ok htl]
      have hpos' : ∃ p ∈ rest, 0 < p.2 := by
        rcases hpos with ⟨q, hq, hq2⟩
        rcases List.mem_cons.mp hq with rfl | hq'
        · exact absurd hq2 hr
        · exact ⟨q, hq', hq2⟩
      rw [ih now hpos']

/-- Witness for C2: zero capacity, a zero-hours task followed by a positive
task, from 08:00 of day 0 with window 08:00-19:00. -/
theorem c2_all_or_nothing_witness :
    scheduleAll 0 8 19 2 [("A", 0), ("B", 3)] 8 = .infeasible :=
  c2_all_or_nothing 8 19 (by norm_num) (by norm_num) (by norm_num) 2 (by norm_num)
    [("A", 0), ("B", 3)] 8 ⟨("B", 3), by simp, by norm_num⟩

/-- C6 (Multi-task boundary): when the inner loop for a task with positive
hours starts exactly at a day's closing instant (the previous task's literal
finish), its first emitted segment starts at the next day's opening instant,
not at that finish. -/
theorem c6_multi_task_boundary (team wOpen wClose : ℚ) (hteam : 0 < team)
    (h0 : 0 ≤ wOpen) (hw : wOpen < wClose) (h24 : wClose < 24)
    (task : String) (fuel : ℕ) (r : ℚ) (hr : 0 < r) (d : ℤ)
    (segs : List Seg) (stop : ℚ)
    (h : taskLoop team wOpen wClose task fuel r (combine d wClose) = .ok segs stop) :
    ∃ s tail, segs = s :: tail ∧ s.start = combine (d + 1) wOpen ∧ s.task = task := by
  have hO24 : wOpen < 24 := lt_trans hw h24
  have h0C : 0 ≤ wClose := le_trans h0 hw.le
  cases fuel with
  | zero => simp [taskLoop, hr] at h
  | succ f =>
    rw [taskLoop_rollover team task f hr (close_rollover h0C h24 hw.le d),
      snapped_combine wOpen wClose d h0C h24 hw.le, dateOf_combine d h0C h24] at h
    cases f with
    | zero => simp [taskLoop, hr] at h
    | succ f2 =>
      have hro2 := open_not_rollover h0 hO24 hw (d + 1)
      have hc2 := open_cap_pos h0 hO24 hw hteam (d + 1)
      cases hrec : taskLoop team wOpen wClose task f2
          (r - allocAt team wOpen wClose r (combine (d + 1) wOpen))
          (segEndAt team wOpen wClose r (combine (d + 1) wOpen)) with
      | ok segs1 stop1 =>
        rw [taskLoop_alloc_ok task f2 hr hro2 hc2 hrec] at h
        simp only [TaskRes.ok.injEq] at h
        refine ⟨⟨task, snapped wOpen (combine (d + 1) wOpen),
          segEndAt team wOpen wClose r (combine (d + 1) wOpen)⟩, segs1, h.1.symm, ?_, rfl⟩
        show snapped wOpen (combine (d + 1) wOpen) = combine (d + 1) wOpen
        exact snapped_combine wOpen wOpen _ h0 hO24 le_rfl
      | infeasible =>
        rw [taskLoop_alloc_infeasible task f2 hr hro2 hc2 hrec] at h
        simp at h
      | out =>
        simp only [taskLoop, if_pos hr, if_neg hro2, if_neg hc2, hrec] at h
        simp at h

/-- Witness for C6: capacity 1, window 08:00-19:00, a 2-hour task entered at
day 0's close (19:00) produces its first segment at day 1's opening (32 h). -/
theorem c6_multi_task_boundary_witness :
    ∃ s tail, ([⟨"B", 32, 34⟩] : List Seg) = s :: tail ∧
      s.start = combine (0 + 1) 8 ∧ s.task = "B" :=
  c6_multi_task_boundary 1 8 19 (by norm_num) (by norm_num) (by norm_num) (by norm_num)
    "B" 3 2 (by norm_num) 0 [⟨"B", 32, 34⟩] 34 evalTask2

/-- C7 (Zero-hours task): a task with `hours = 0` contributes no segments and
leaves the cursor unchanged, so the run is identical to the run with that task
removed, wherever it sits in the task list. -/
theorem c7_zero_hours_task (team wOpen wClose : ℚ) (fuel : ℕ) (t : String) :
    ∀ (pre post : List (String × ℚ)) (now : ℚ),
      scheduleAll team wOpen wClose fuel (pre ++ (t, 0) :: post) now =
        scheduleAll team wOpen wClose fuel (pre ++ post) now := by
  intro pre
  induction pre with
  | nil =>
    intro post now
    simp only [List.nil_append]
    have htl : taskLoop team wOpen wClose t fuel 0 now = .ok [] now :=
      taskLoop_nonpos _ _ _ _ _ (by norm_num) _
    rw [scheduleAll_cons_ok htl]
    cases hrest : scheduleAll team wOpen wClose fuel post now <;> simp
  | cons p pre ih =>
    obtain ⟨q, hq⟩ := p
    intro post now
    simp only [List.cons_append]
    cases htl : taskLoop team wOpen wClose q fuel hq now with
    | ok segs stop =>
      rw [scheduleAll_cons_ok htl, scheduleAll_cons_ok htl, ih post stop]
    | infeasible =>
      rw [scheduleAll_cons_infeasible htl, scheduleAll_cons_infeasible htl]
    | out =>
      rw [scheduleAll_cons_out htl, scheduleAll_cons_out htl]

/-- C8, counterexample to the claim as stated: an input satisfying all
preconditions (capacity 1 > 0, window 08:00 < 19:00, hours 0 ≥ 0) on which the
scheduler signals feasibility with an empty segment sequence, so emptiness
does occur without the infeasibility signal. -/
theorem c8_counterexample : scheduleAll 1 8 19 5 [("A", 0)] 8 = .feasible [] := by
  have htl : taskLoop 1 8 19 "A" 5 0 8 = .ok [] 8 :=
    taskLoop_nonpos _ _ _ _ _ (by norm_num) _
  rw [scheduleAll_cons_ok htl]
  simp [scheduleAll]

/-- A task with positive remaining hours that completes emits at least one
segment. -/
lemma taskLoop_pos_ne_nil (team wOpen wClose : ℚ) (task : String) :
    ∀ (fuel : ℕ) (r now : ℚ) (segs : List Seg) (stop : ℚ), 0 < r →
      taskLoop team wOpen wClose task fuel r now = .ok segs stop → segs ≠ [] := by
  intro fuel
  induction fuel with
  | zero =>
    intro r now segs stop hr h
    simp [taskLoop, hr] at h
  | succ fuel ih =>
    intro r now segs stop hr h
    by_cases hro : combine (dateOf now) wClose ≤ snapped wOpen now
    · rw [taskLoop_rollover team task fuel hr hro] at h
      exact ih _ _ _ _ hr h
    · by_cases hc : availAt wOpen wClose now * team ≤ 0
      · rw [taskLoop_capfail task fuel hr hro hc] at h
        simp at h
      · cases hrec : taskLoop team wOpen wClose task fuel
            (r - allocAt team wOpen wClose r now) (segEndAt team wOpen wClose r now) with
        | ok segs1 stop1 =>
          rw [taskLoop_alloc_ok task fuel hr hro hc hrec] at h
          simp only [TaskRes.ok.injEq] at h
          rw [← h.1]
          simp
        | infeasible =>
          rw [taskLoop_alloc_infeasible task fuel hr hro hc hrec] at h
          simp at h
        | out =>
          simp only [taskLoop, if_pos hr, if_neg hro, if_neg hc, hrec] at h
          simp at h

/-- C8 amended: a feasible result is non-empty provided at least one task has
positive hours (with only zero-hours tasks a feasible run legitimately returns
an empty sequence, as `c8_counterexample` shows). -/
theorem c8_feasible_nonempty (team wOpen wClose : ℚ) (fuel : ℕ) :
    ∀ (tasks : List (String × ℚ)) (now : ℚ) (segs : List Seg),
      (∃ p ∈ tasks, 0 < p.2) →
      scheduleAll team wOpen wClose fuel tasks now = .feasible segs →
      segs ≠ [] := by
  intro tasks
  induction tasks with
  | nil =>
    intro now segs hpos _
    simp at hpos
  | cons p rest ih =>
    obtain ⟨t, hrs⟩ := p
    intro now segs hpos hf
    obtain ⟨segs1, stop, more, htl, hrest, rfl⟩ := scheduleAll_feasible_cons hf
    rcases hpos with ⟨q, hq, hq2⟩
    rcases List.mem_cons.mp hq with rfl | hq'
    · have h1 : segs1 ≠ [] :=
        taskLoop_pos_ne_nil team wOpen wClose t fuel hrs now segs1 stop hq2 htl
      intro hemp
      exact h1 (List.append_eq_nil.mp hemp).1
    · have h2 : more ≠ [] := ih stop more ⟨q, hq', hq2⟩ hrest
      intro hemp
      exact h2 (List.append_eq_nil.mp hemp).2

/-- Witness for the amended C8 at the concrete one-task run `evalRun11`. -/
theorem c8_feasible_nonempty_witness : ([⟨"A", 8, 19⟩] : List Seg) ≠ [] :=
  c8_feasible_nonempty 1 8 19 5 [("A", 11)] 8 [⟨"A", 8, 19⟩]
    ⟨("A", 11), List.mem_singleton_self _, by norm_num⟩ evalRun11

/-- C10 (implicit): with zero capacity but every task at zero hours, the loop
never reaches the zero-capacity check, so the run reports feasibility with an
empty segment sequence — indistinguishable, by the segment sequence alone, from
the discarded schedule of an infeasible run. -/
theorem c10_all_zero_hours (wOpen wClose : ℚ) (fuel : ℕ) :
    ∀ (tasks : List (String × ℚ)) (now : ℚ), (∀ p ∈ tasks, p.2 = 0) →
      scheduleAll 0 wOpen wClose fuel tasks now = .feasible [] := by
  intro tasks
  induction tasks with
  | nil => intro now _; rfl
  | cons p rest ih =>
    obtain ⟨t, hrs⟩ := p
    intro now hall
    have h0 : hrs = 0 := hall (t, hrs) (List.mem_cons_self _ _)
    have htl : taskLoop 0 wOpen wClose t fuel hrs now = .ok [] now := by
      rw [h0]
      exact taskLoop_nonpos _ _ _ _ _ (by norm_num) _
    rw [scheduleAll_cons_ok htl, ih now fun p hp => hall p (List.mem_cons_of_mem _ hp)]
    simp

/-- Witness for C10: zero capacity, one zero-hours task. -/
theorem c10_all_zero_hours_witness : scheduleAll 0 8 19 3 [("A", 0)] 8 = .feasible [] :=
  c10_all_zero_hours 8 19 3 [("A", 0)] 8
    (by rintro p hp; simp only [List.mem_singleton] at hp; subst hp; rfl)

/-! ### Termination bound -/

/-- Fuel accounting from window-aligned cursors: starting at a day's close,
`2k` passes suffice to place `k` full-day quanta `(wClose - wOpen) * team`
of labor-hours (one rollover plus one allocation each); starting at a day's
opening, one further day fits with one fewer pass. -/
lemma taskLoop_term_aligned {team wOpen wClose : ℚ} (task : String)
    (h0 : 0 ≤ wOpen) (how : wOpen < wClose) (h24 : wClose < 24) (hteam : 0 < team) :
    ∀ k : ℕ,
      (∀ (r : ℚ) (d : ℤ) (fuel : ℕ), 0 ≤ r →
          r ≤ (k : ℚ) * ((wClose - wOpen) * team) → 2 * k ≤ fuel →
          taskLoop team wOpen wClose task fuel r (combine d wClose) ≠ .out) ∧
      (∀ (r : ℚ) (d : ℤ) (fuel : ℕ), 0 ≤ r →
          r ≤ ((k : ℚ) + 1) * ((wClose - wOpen) * team) → 2 * k + 1 ≤ fuel →
          taskLoop team wOpen wClose task fuel r (combine d wOpen) ≠ .out) := by
  have hO24 : wOpen < 24 := lt_trans how h24
  have h0C : 0 ≤ wClose := le_trans h0 how.le
  have hW : 0 < (wClose - wOpen) * team := mul_pos (by linarith) hteam
  intro k
  induction k with
  | zero =>
    constructor
    · intro r d fuel hr0 hrk _
      have hr : r = 0 := le_antisymm (by simpa using hrk) hr0
      subst hr
      rw [taskLoop_nonpos _ _ _ _ _ (by norm_num) _]
      simp
    · intro r d fuel hr0 hrk hfuel
      by_cases hr : 0 < r
      · obtain ⟨f, rfl⟩ : ∃ f, fuel = f + 1 := ⟨fuel - 1, by omega⟩
        apply taskLoop_alloc_ne_out task f hr (open_not_rollover h0 hO24 how d)
          (open_cap_pos h0 hO24 how hteam d)
        have halloc : allocAt team wOpen wClose r (combine d wOpen) = r := by
          rw [allocAt_open h0 hO24]
          exact min_eq_left (by simpa using hrk)
        rw [halloc, sub_self, taskLoop_nonpos _ _ _ _ _ (by norm_num) _]
        simp
      · rw [taskLoop_nonpos _ _ _ _ _ hr _]
        simp
  | succ k ihk =>
    obtain ⟨ihClose, ihOpen⟩ := ihk
    have hClose : ∀ (r : ℚ) (d : ℤ) (fuel : ℕ), 0 ≤ r →
        r ≤ ((k : ℚ) + 1) * ((wClose - wOpen) * team) → 2 * (k + 1) ≤ fuel →
        taskLoop team wOpen wClose task fuel r (combine d wClose) ≠ .out := by
      intro r d fuel hr0 hrk hfuel
      by_cases hr : 0 < r
      · obtain ⟨f, rfl⟩ : ∃ f, fuel = f + 1 := ⟨fuel - 1, by omega⟩
        rw [taskLoop_rollover team task f hr (close_rollover h0C h24 how.le d),
          snapped_combine wOpen wClose d h0C h24 how.le, dateOf_combine d h0C h24]
        exact ihOpen r (d + 1) f hr0 hrk (by omega)
      · rw [taskLoop_nonpos _ _ _ _ _ hr _]
        simp
    constructor
    · intro r d fuel hr0 hrk hfuel
      refine hClose r d fuel hr0 ?_ hfuel
      push_cast at hrk
      linarith
    · intro r d fuel hr0 hrk hfuel
      by_cases hr : 0 < r
      · obtain ⟨f, rfl⟩ : ∃ f, fuel = f + 1 := ⟨fuel - 1, by omega⟩
        apply taskLoop_alloc_ne_out task f hr (open_not_rollover h0 hO24 how d)
          (open_cap_pos h0 hO24 how hteam d)
        by_cases hrW : r ≤ (wClose - wOpen) * team
        · have halloc : allocAt team wOpen wClose r (combine d wOpen) = r := by
            rw [allocAt_open h0 hO24]
            exact min_eq_left hrW
          rw [halloc, sub_self, taskLoop_nonpos _ _ _ _ _ (by norm_num) _]
          simp
        · push_neg at hrW
          have halloc : allocAt team wOpen wClose r (combine d wOpen) =
              (wClose - wOpen) * team := by
            rw [allocAt_open h0 hO24]
            exact min_eq_right hrW.le
          rw [segEndAt_open_full h0 hO24 hteam d hrW.le, halloc]
          refine hClose (r - (wClose - wOpen) * team) d f (by linarith) ?_ (by omega)
          push_cast at hrk
          nlinarith [hrk]
      · rw [taskLoop_nonpos _ _ _ _ _ hr _]
        simp

/-- The inner loop cannot exhaust `2k + 2` fuel units when the task's hours fit
in `k` full-day labor quanta, from any cursor position. -/
lemma taskLoop_term {team wOpen wClose : ℚ} (task : String)
    (h0 : 0 ≤ wOpen) (how : wOpen < wClose) (h24 : wClose < 24) (hteam : 0 < team)
    (k : ℕ) (r now : ℚ) (fuel : ℕ) (hr0 : 0 ≤ r)
    (hrk : r ≤ (k : ℚ) * ((wClose - wOpen) * team)) (hfuel : 2 * k + 2 ≤ fuel) :
    taskLoop team wOpen wClose task fuel r now ≠ .out := by
  have hW : 0 < (wClose - wOpen) * team := mul_pos (by linarith) hteam
  obtain ⟨hClose, hOpen⟩ := taskLoop_term_aligned task h0 how h24 hteam k
  by_cases hr : 0 < r
  · obtain ⟨f, rfl⟩ : ∃ f, fuel = f + 1 := ⟨fuel - 1, by omega⟩
    by_cases hro : combine (dateOf now) wClose ≤ snapped wOpen now
    · rw [taskLoop_rollover team task f hr hro]
      exact hOpen r (dateOf (snapped wOpen now) + 1) f hr0 (by nlinarith [hrk]) (by omega)
    · by_cases hc : availAt wOpen wClose now * team ≤ 0
      · rw [taskLoop_capfail task f hr hro hc]
        simp
      · apply taskLoop_alloc_ne_out task f hr hro hc
        by_cases har : r ≤ availAt wOpen wClose now * team
        · have halloc : allocAt team wOpen wClose r now = r := min_eq_left har
          rw [halloc, sub_self, taskLoop_nonpos _ _ _ _ _ (by norm_num) _]
          simp
        · push_neg at har
          have halloc : allocAt team wOpen wClose r now =
              availAt wOpen wClose now * team := min_eq_right har.le
          have hcap : 0 < availAt wOpen wClose now * team := not_le.mp hc
          have hsegEnd : segEndAt team wOpen wClose r now = combine (dateOf now) wClose := by
            rw [segEndAt, halloc, mul_div_cancel_right₀ _ (ne_of_gt hteam), availAt]
            ring
          rw [hsegEnd]
          refine hClose (r - allocAt team wOpen wClose r now) (dateOf now) f ?_ ?_ (by omega)
          · rw [halloc]; linarith
          · rw [halloc]; linarith
  · rw [taskLoop_nonpos _ _ _ _ _ hr _]
    simp

/-- The whole run cannot exhaust the fuel when every task's hours fit in `k`
full-day labor quanta and each task receives `2k + 2` fuel units. -/
lemma scheduleAll_term {team wOpen wClose : ℚ}
    (h0 : 0 ≤ wOpen) (how : wOpen < wClose) (h24 : wClose < 24) (hteam : 0 < team)
    (k fuel : ℕ) (hfuel : 2 * k + 2 ≤ fuel) :
    ∀ (tasks : List (String × ℚ)) (now : ℚ),
      (∀ p ∈ tasks, 0 ≤ p.2 ∧ p.2 ≤ (k : ℚ) * ((wClose - wOpen) * team)) →
      scheduleAll team wOpen wClose fuel tasks now ≠ .out := by
  intro tasks
  induction tasks with
  | nil =>
    intro now _
    simp [scheduleAll]
  | cons p rest ih =>
    obtain ⟨t, hrs⟩ := p
    intro now hall
    obtain ⟨h1, h2⟩ := hall (t, hrs) (List.mem_cons_self _ _)
    have htl := taskLoop_term t h0 how h24 hteam k hrs now fuel h1 h2 hfuel
    cases htlc : taskLoop team wOpen wClose t fuel hrs now with
    | ok segs stop =>
      rw [scheduleAll_cons_ok htlc]
      have hrest := ih stop fun p hp => hall p (List.mem_cons_of_mem _ hp)
      cases hr2 : scheduleAll team wOpen wClose fuel rest stop with
      | feasible more => simp
      | infeasible => simp
      | out => exact absurd hr2 hrest
    | infeasible =>
      rw [scheduleAll_cons_infeasible htlc]
      simp
    | out => exact absurd htlc htl

/-- C9 (Termination): with positive capacity, a valid window and nonnegative
hours, fuel `2 * ⌈sum(hours) / ((wClose - wOpen) * capacity)⌉ + 2` per task —
proportional to `sum(hours) / (capacity * window length)` in day-rollovers —
is never exhausted: the scheduling loop terminates within that bound. -/
theorem c9_termination (team wOpen wClose : ℚ) (h0 : 0 ≤ wOpen) (hw : wOpen < wClose)
    (h24 : wClose < 24) (hteam : 0 < team) (tasks : List (String × ℚ))
    (hnn : ∀ p ∈ tasks, 0 ≤ p.2) (now : ℚ) :
    scheduleAll team wOpen wClose
      (2 * (⌈(tasks.map Prod.snd).sum / ((wClose - wOpen) * team)⌉).toNat + 2)
      tasks now ≠ .out := by
  have hW : 0 < (wClose - wOpen) * team := mul_pos (by linarith) hteam
  apply scheduleAll_term h0 hw h24 hteam
    ((⌈(tasks.map Prod.snd).sum / ((wClose - wOpen) * team)⌉).toNat) _ le_rfl
  intro p hp
  refine ⟨hnn p hp, ?_⟩
  have hpS : p.2 ≤ (tasks.map Prod.snd).sum := by
    apply List.single_le_sum
    · intro x hx
      obtain ⟨q, hq, rfl⟩ := List.mem_map.mp hx
      exact hnn q hq
    · exact List.mem_map_of_mem Prod.snd hp
  have h1 : (tasks.map Prod.snd).sum / ((wClose - wOpen) * team) ≤
      ((⌈(tasks.map Prod.snd).sum / ((wClose - wOpen) * team)⌉).toNat : ℚ) := by
    refine le_trans (Int.le_ceil _) ?_
    exact_mod_cast Int.self_le_toNat _
  have h2 := (div_le_iff₀ hW).mp h1
  linarith

/-- Witness for C9: capacity 1, window 08:00-19:00, one 5-hour task. -/
theorem c9_termination_witness :
    scheduleAll 1 8 19
      (2 * (⌈([("A", (5 : ℚ))].map Prod.snd).sum / ((19 - 8) * 1)⌉).toNat + 2)
      [("A", 5)] 8 ≠ .out :=
  c9_termination 1 8 19 (by norm_num) (by norm_num) (by norm_num) (by norm_num)
    [("A", 5)] (by rintro p hp; simp only [List.mem_singleton] at hp; subst hp; norm_num) 8
